import Mathlib

/-!
Verification development for the rigz tree-sitter binding repository.

The repository's only source file is the C binding header
`bindings/swift/TreeSitterRigz/rigz.h`, declaring a single accessor
`const TSLanguage *tree_sitter_rigz(void);` behind an include guard.
The specification describes the incremental parsing core that consumes
such a grammar-table handle.  The header is embedded directly (see the
`Header` section below); the parsing core, which is not present in the
repository's sources, is modelled from the spec: grammar table, scanner,
shift-reduce parse engine with error recovery, syntax tree, edits, and
the incremental reparser.
-/

set_option maxHeartbeats 1000000

namespace RigzParse

/-- Modelled from the spec: a Token is "a symbol id plus a half-open byte
range `[start, end)`".  Symbol id 0 is reserved for the synthetic ERROR
token.  Row/column positions are derivable bookkeeping over the byte
range and are not modelled. -/
structure Tok where
  sym : Nat
  start : Nat
  stop : Nat
deriving Repr, DecidableEq

/-- Modelled from the spec: a token rule of the Grammar Table: a terminal
symbol, a literal byte pattern, and a rule priority used for tie-breaking
in the scanner.  (The spec leaves the pattern formalism open; literal
byte patterns are the instance modelled here.) -/
structure TokenRule where
  sym : Nat
  pattern : List Nat
  prio : Int
deriving Repr, DecidableEq

/-- Modelled from the spec: rule associativity, used in conflict
resolution ("left associates by preferring reduce, right by preferring
shift"). -/
inductive Assoc
  | left
  | right
  | nonassoc
deriving Repr, DecidableEq

/-- Modelled from the spec: a grammar rule: "left-hand symbol, ordered
sequence of right-hand symbols, precedence, associativity". -/
structure Rule where
  lhs : Nat
  rhs : List Nat
  prec : Int
  assoc : Assoc
deriving Repr, DecidableEq

/-- Modelled from the spec: a parse action of the state-transition
table: shift(state), reduce(rule index), or accept.  An empty candidate
list in the table stands for the defined error-recovery action. -/
inductive PAction
  | shift (st : Nat)
  | reduce (r : Nat)
  | accept
deriving Repr, DecidableEq

/-- Modelled from the spec: the Grammar Table: "symbol set,
state-transition table mapping (state, symbol) to actions, rule set".
The transition table is a finite association list from (state, symbol)
to the list of candidate actions; a list of length greater than one
encodes an ambiguity resolved deterministically by `resolveAction`. -/
structure Grammar where
  start : Nat
  eofSym : Nat
  tokenRules : List TokenRule
  rules : List Rule
  table : List (Nat × Nat × List PAction)
deriving Repr, DecidableEq

/-- Candidate actions of the table at (state, symbol); `[]` means the
error-recovery action. -/
def actionsFor (G : Grammar) (st sym : Nat) : List PAction :=
  match G.table.find? (fun e => e.1 == st && e.2.1 == sym) with
  | some e => e.2.2
  | none => []

/-! ## Scanner -/

/-- The scanner's lookahead bound: the longest token pattern of the
grammar (at least 1, for the synthetic ERROR token). -/
def maxLook (G : Grammar) : Nat :=
  max 1 (G.tokenRules.foldr (fun r m => max r.pattern.length m) 0)

/-- The strict lexicographic preference on 4-component keys used by both
the scanner (longest match, then priority, then earliest declaration)
and the parse engine's conflict resolution (precedence, then
associativity rank, then rule order): larger in the first three
components is better, smaller in the last (the declaration index). -/
def lexKeyLt : Int × Int × Int × Nat → Int × Int × Int × Nat → Bool
  | (a1, b1, c1, d1), (a2, b2, c2, d2) =>
    a2 < a1 || (a1 == a2 && (b2 < b1 || (b1 == b2 && (c2 < c1 || (c1 == c2 && d1 < d2)))))

/-- Fold picking the best element of a list under a strict preference. -/
def chooseBest (better : α → α → Bool) : α → List α → α
  | a, [] => a
  | a, x :: xs => chooseBest better (if better x a then x else a) xs

/-- Preference key of an indexed token rule: match length, priority,
0, declaration index. -/
def tokKey (ir : Nat × TokenRule) : Int × Int × Int × Nat :=
  ((ir.2.pattern.length : Int), ir.2.prio, 0, ir.1)

/-- Scanner preference between indexed token rules. -/
def betterTok (x y : Nat × TokenRule) : Bool :=
  lexKeyLt (tokKey x) (tokKey y)

/-- The indexed token rules applicable in valid-symbol set `V` whose
pattern matches (is a nonempty prefix of) the window `w`. -/
def scanCands (G : Grammar) (V : Nat → Bool) (w : List Nat) : List (Nat × TokenRule) :=
  G.tokenRules.enum.filter
    (fun ir => V ir.2.sym && !ir.2.pattern.isEmpty && ir.2.pattern.isPrefixOf w)

/-- Modelled from the spec: the scanner decision on a lookahead window:
the longest applicable match, ties broken by rule priority then earliest
declaration; if no rule matches, the synthetic ERROR token (symbol 0) of
length exactly 1. -/
def scanWindow (G : Grammar) (V : Nat → Bool) (w : List Nat) : Nat × Nat :=
  match scanCands G V w with
  | [] => (0, 1)
  | c :: cs =>
    let b := chooseBest betterTok c cs
    (b.2.sym, b.2.pattern.length)

/-- Modelled from the spec: the Scanner: "given a byte cursor position
and the valid-symbol set, return the longest token match starting at
that position among rules applicable in that set, breaking ties by rule
priority then by earliest-declared rule"; on failure "emits a synthetic
ERROR token of length 1".  It reads at most `maxLook G` bytes past the
cursor and "never reads past the provided input boundary". -/
def scanNext (G : Grammar) (V : Nat → Bool) (text : List Nat) (p : Nat) : Nat × Nat :=
  scanWindow G V (List.take (maxLook G) (List.drop p text))

/-- Fuel-driven tokenization loop: scan at `p`, emit the token, advance
by its length. -/
def tokenizeGo (G : Grammar) (text : List Nat) : Nat → Nat → List Tok
  | 0, _ => []
  | fuel + 1, p =>
    if p < text.length then
      let sn := scanNext G (fun _ => true) text p
      ⟨sn.1, p, p + sn.2⟩ :: tokenizeGo G text fuel (p + sn.2)
    else []

/-- Modelled from the spec: tokenize the whole input.  The engine is
modelled with the trivially-full valid-symbol set, decoupling lexing
from parse state (`scanNext` itself is parametric in the set). -/
def tokenize (G : Grammar) (text : List Nat) : List Tok :=
  tokenizeGo G text text.length 0

/-! ## Syntax tree -/

/-- Modelled from the spec: a Syntax Node: "a symbol id, a byte range,
an ordered sequence of child nodes (empty for leaves), and a flag
marking it as an error/missing node". -/
inductive Node
  | leaf (sym s e : Nat) (isErr isMissing : Bool)
  | node (sym s e : Nat) (isErr : Bool) (children : List Node)

/-- Start of a node's byte range. -/
def nodeStart : Node → Nat
  | .leaf _ s _ _ _ => s
  | .node _ s _ _ _ => s

/-- End of a node's byte range (exclusive). -/
def nodeEnd : Node → Nat
  | .leaf _ _ e _ _ => e
  | .node _ _ e _ _ => e

/-- Symbol of a node. -/
def nodeSym : Node → Nat
  | .leaf sym _ _ _ _ => sym
  | .node sym _ _ _ _ => sym

mutual

/-- The containment invariant of the spec, as a decidable check: a
node's range "always covers the union of its children's ranges", the
children are "contiguous and ordered left-to-right with no gaps", and
every subnode satisfies the same. -/
def wfNode : Node → Bool
  | .leaf _ s e _ _ => decide (s ≤ e)
  | .node _ s e _ cs => spansB s e cs

/-- `spansB s e l`: the nodes of `l` are well formed and their ranges
tile the interval `[s, e)` left to right with no gaps or overlaps. -/
def spansB : Nat → Nat → List Node → Bool
  | s, e, [] => s == e
  | s, e, c :: cs => (nodeStart c == s) && wfNode c && spansB (nodeEnd c) e cs

end

mutual

/-- Leaves of a node in left-to-right order, as tokens (symbol and
range). -/
def leaves : Node → List Tok
  | .leaf sym s e _ _ => [⟨sym, s, e⟩]
  | .node _ _ _ _ cs => leavesList cs

/-- Leaves of a list of nodes, in order. -/
def leavesList : List Node → List Tok
  | [] => []
  | c :: cs => leaves c ++ leavesList cs

end

mutual

/-- Modelled from the spec: structural identity of nodes: "two nodes
from possibly different trees are considered structurally identical if
symbol id, range-relative content, and child structure match". -/
def structEq : Node → Node → Bool
  | .leaf sym s e er mi, .leaf sym2 s2 e2 er2 mi2 =>
    sym == sym2 && s == s2 && e == e2 && er == er2 && mi == mi2
  | .node sym s e er cs, .node sym2 s2 e2 er2 cs2 =>
    sym == sym2 && s == s2 && e == e2 && er == er2 && structEqList cs cs2
  | _, _ => false

/-- Pointwise structural identity of child lists. -/
def structEqList : List Node → List Node → Bool
  | [], [] => true
  | c :: cs, d :: ds => structEq c d && structEqList cs ds
  | _, _ => false

end

/-- Modelled from the spec: a Syntax Tree: "a single root Syntax Node
plus tree-level metadata (grammar version, source length)". -/
structure Tree where
  root : Node
  srcLen : Nat

/-! ## Parse engine -/

/-- Parse-time precedence of a terminal symbol: the priority of its
token rule (0 if none), used on the shift side of shift/reduce
conflicts. -/
def tokPrec (G : Grammar) (sym : Nat) : Int :=
  ((G.tokenRules.find? (fun r => r.sym == sym)).map (fun r => r.prio)).getD 0

/-- Precedence of a candidate action: the rule's declared precedence for
a reduce, the lookahead token's precedence for a shift. -/
def actPrec (G : Grammar) (tp : Int) : PAction → Int
  | .shift _ => tp
  | .reduce r => ((G.rules[r]?).map (fun ru => ru.prec)).getD 0
  | .accept => 0

/-- Associativity rank of a candidate action: a left-associative reduce
is preferred over a shift, a shift over a right-associative reduce. -/
def actAssocRank (G : Grammar) : PAction → Int
  | .shift _ => 1
  | .reduce r =>
    match G.rules[r]? with
    | some ru =>
      match ru.assoc with
      | .left => 2
      | .right => 0
      | .nonassoc => 1
    | none => 1
  | .accept => 1

/-- Rule-declaration-order rank of a candidate action: among reduces,
the earliest-declared rule is preferred. -/
def actRuleOrd : PAction → Int
  | .shift _ => 0
  | .reduce r => -(1 + (r : Int))
  | .accept => 0

/-- Preference key of an indexed candidate action: precedence, then
associativity rank, then rule declaration order, then position in the
candidate list as the final deterministic tie-break. -/
def actKey (G : Grammar) (tp : Int) (ia : Nat × PAction) : Int × Int × Int × Nat :=
  (actPrec G tp ia.2, actAssocRank G ia.2, actRuleOrd ia.2, ia.1)

/-- Conflict-resolution preference between indexed candidate actions. -/
def betterAct (G : Grammar) (tp : Int) (x y : Nat × PAction) : Bool :=
  lexKeyLt (actKey G tp x) (actKey G tp y)

/-- Modelled from the spec: conflict resolution: "resolve using declared
rule precedence, then associativity, then rule declaration order as
final tie-break", a deterministic function of the candidate list. -/
def resolveAction (G : Grammar) (tp : Int) (acts : List PAction) : Option PAction :=
  match acts.enum with
  | [] => none
  | c :: cs => some (chooseBest (betterAct G tp) c cs).2

/-- An ERROR leaf wrapping a skipped token. -/
def errLeaf (t : Tok) : Node :=
  .leaf t.sym t.start t.stop true false

/-- Flush remaining tokens onto the stack as ERROR leaves (used when the
reduce fuel is exhausted), preserving total coverage. -/
def dumpErrs (toks : List Tok) (stack : List Node) : List Node :=
  (toks.map errLeaf).reverse ++ stack

/-- Modelled from the spec: the recovery attempt "(a) insertion of a
synthetic missing node for an expected symbol": find an expected symbol
of state `st` whose shift target lets the offending token itself shift
next (the one-step "resumes normal shifting soonest" horizon). -/
def findInsert (G : Grammar) (st tokSym : Nat) : Option (Nat × Nat) :=
  (G.table.filter (fun e => e.1 == st)).findSome? (fun e =>
    match resolveAction G (tokPrec G e.2.1) e.2.2 with
    | some (.shift s2) =>
      match resolveAction G (tokPrec G tokSym) (actionsFor G s2 tokSym) with
      | some (.shift _) => some (e.2.1, s2)
      | _ => none
    | _ => none)

/-- The node built by a reduce: pop `|rule.rhs|` nodes and "construct a
new Syntax Node labeled with `rule.lhs` covering their combined range";
an empty-rhs reduce yields a zero-width node at the cursor `pos`. -/
def reduceNode (rule : Rule) (stack : List Node) (pos : Nat) : Node :=
  let children := (stack.take rule.rhs.length).reverse
  let s := match children.head? with
    | some c => nodeStart c
    | none => pos
  let e := match (stack.take rule.rhs.length).head? with
    | some c => nodeEnd c
    | none => pos
  .node rule.lhs s e false children

/-- State-stack bookkeeping of a reduce: pop `|rule.rhs|` states and
follow the goto transition on `rule.lhs` when the table has one. -/
def gotoStates (G : Grammar) (rule : Rule) (states : List Nat) : List Nat :=
  let states2 := states.drop rule.rhs.length
  match resolveAction G 0 (actionsFor G (states2.headD 0) rule.lhs) with
  | some (.shift s2) => s2 :: states2
  | _ => states2

/-- Modelled from the spec: the table-driven shift-reduce automaton with
error recovery.  One fuel unit is spent per transition; exhausting fuel
flushes the remaining tokens as ERROR leaves so that coverage is never
lost.  When the input is exhausted, remaining reduces fire on the EOF
lookahead until accept or no action.  The returned stack holds the
forest of completed nodes, top first. -/
def engineGo (G : Grammar) : Nat → List Tok → List Node → List Nat → List Node
  | 0, [], stack, _ => stack
  | 0, t :: ts, stack, _ => dumpErrs (t :: ts) stack
  | fuel + 1, [], stack, states =>
    let st := states.headD 0
    match resolveAction G 0 (actionsFor G st G.eofSym) with
    | some (.reduce r) =>
      match G.rules[r]? with
      | some rule =>
        if rule.rhs.length ≤ stack.length then
          let pos := ((stack.head?).map nodeEnd).getD 0
          engineGo G fuel []
            (reduceNode rule stack pos :: stack.drop rule.rhs.length)
            (gotoStates G rule states)
        else stack
      | none => stack
    | _ => stack
  | fuel + 1, t :: ts, stack, states =>
    let st := states.headD 0
    match resolveAction G (tokPrec G t.sym) (actionsFor G st t.sym) with
    | some (.shift s2) =>
      engineGo G fuel ts (.leaf t.sym t.start t.stop (t.sym == 0) false :: stack) (s2 :: states)
    | some (.reduce r) =>
      match G.rules[r]? with
      | some rule =>
        if rule.rhs.length ≤ stack.length then
          engineGo G fuel (t :: ts)
            (reduceNode rule stack t.start :: stack.drop rule.rhs.length)
            (gotoStates G rule states)
        else
          engineGo G fuel ts (errLeaf t :: stack) states
      | none => engineGo G fuel ts (errLeaf t :: stack) states
    | some .accept => engineGo G fuel ts (errLeaf t :: stack) states
    | none =>
      match findInsert G st t.sym with
      | some ms =>
        engineGo G fuel (t :: ts) (.leaf ms.1 t.start t.start true true :: stack) (ms.2 :: states)
      | none => engineGo G fuel ts (errLeaf t :: stack) states

/-- Fuel budget for the engine: generous enough for ordinary grammars;
coverage and determinism hold for any budget. -/
def engineFuel (toks : List Tok) (len : Nat) : Nat :=
  (toks.length + 1) * (len + 2)

/-- Modelled from the spec: run the engine over a token stream and root
the result: "a partial/unrecoverable failure still yields a complete
tree rooted at the start symbol". -/
def parseFromTokens (G : Grammar) (toks : List Tok) (len : Nat) : Tree :=
  let stack := engineGo G (engineFuel toks len) toks [] [0]
  let children := stack.reverse
  match children with
  | [n] =>
    if nodeSym n == G.start && nodeStart n == 0 && nodeEnd n == len then ⟨n, len⟩
    else ⟨.node G.start 0 len true [n], len⟩
  | _ => ⟨.node G.start 0 len true children, len⟩

/-- Modelled from the spec: the full parse: tokenize, run the engine,
root the tree.  A total function over byte sequences. -/
def parse (G : Grammar) (text : List Nat) : Tree :=
  parseFromTokens G (tokenize G text) text.length

/-! ## Specification predicates -/

/-- `toksChain p len toks`: the token stream `toks` tiles `[p, len)`
left to right with nonempty, gapless, non-overlapping ranges. -/
def toksChain : Nat → Nat → List Tok → Bool
  | p, len, [] => p == len
  | p, len, t :: ts => (t.start == p) && decide (p < t.stop) && toksChain t.stop len ts

/-- `leavesCover s e l`: the leaf ranges `l` partition `[s, e)`: their
concatenation in order covers every byte exactly once, with no gaps and
no overlaps (zero-width missing leaves allowed). -/
def leavesCover : Nat → Nat → List Tok → Bool
  | s, e, [] => s == e
  | s, e, t :: ts => (t.start == s) && decide (t.start ≤ t.stop) && leavesCover t.stop e ts

/-- A token-rule match at cursor `p`: an indexed rule of the grammar,
applicable in the valid-symbol set `V`, whose (nonempty) pattern matches
the input starting at `p`. -/
def TokenMatch (G : Grammar) (V : Nat → Bool) (text : List Nat) (p : Nat)
    (ir : Nat × TokenRule) : Prop :=
  ir ∈ G.tokenRules.enum ∧ V ir.2.sym = true ∧ ir.2.pattern ≠ [] ∧ ir.2.pattern <+: text.drop p

/-- A maximal candidate action under the conflict-resolution preference
(precedence, then associativity, then rule declaration order): the spec
sense in which resolution "makes every automaton step a function". -/
def ActMax (G : Grammar) (tp : Int) (acts : List PAction) (ia : Nat × PAction) : Prop :=
  ia ∈ acts.enum ∧ ∀ jb ∈ acts.enum, jb = ia ∨ betterAct G tp ia jb = true

/-! ## Edits and the incremental reparser -/

/-- Modelled from the spec: an Edit: "a record of `(start_byte,
old_end_byte, new_end_byte, start_position, old_end_position,
new_position)` describing a single text replacement", extended with the
replacement bytes so that edits determine the new text.  Positions are
(row, column) bookkeeping derivable from the byte ranges. -/
structure Edit where
  startByte : Nat
  oldEndByte : Nat
  newEndByte : Nat
  startPos : Nat × Nat
  oldEndPos : Nat × Nat
  newEndPos : Nat × Nat
  inserted : List Nat
deriving Repr, DecidableEq

/-- Apply one edit to a text: replace `[startByte, oldEndByte)` with the
inserted bytes. -/
def applyEdit (text : List Nat) (e : Edit) : List Nat :=
  text.take e.startByte ++ e.inserted ++ text.drop e.oldEndByte

/-- Apply an edit sequence in order; each edit is expressed in the
coordinates of the text produced by the previous ones. -/
def applyEdits (text : List Nat) : List Edit → List Nat
  | [] => text
  | e :: es => applyEdits (applyEdit text e) es

/-- Modelled from the spec: validity of an edit sequence over a text of
length `len` starting no earlier than `minS`: each edit is internally
consistent and in bounds, and successive edits are in ascending order
with no overlap ("out-of-order application is undefined and must be
rejected"). -/
def validEditsFrom (minS len : Nat) : List Edit → Bool
  | [] => true
  | e :: es =>
    minS ≤ e.startByte && e.startByte ≤ e.oldEndByte && e.oldEndByte ≤ len &&
      e.newEndByte == e.startByte + e.inserted.length &&
      validEditsFrom e.newEndByte (e.startByte + e.inserted.length + (len - e.oldEndByte)) es

/-- Validity of an edit sequence against the previous text length. -/
def validEdits (len : Nat) (E : List Edit) : Bool :=
  validEditsFrom 0 len E

/-- Position adjustment through one edit for a scanner window of width
`L` starting at `o`: positions whose whole window lies before the edit
keep their place, positions at or past the old end shift by the length
delta, and positions whose window touches the edited span are damaged
(`none`). -/
def adjustOne (L : Nat) (e : Edit) (o : Nat) : Option Nat :=
  if o + L ≤ e.startByte then some o
  else if e.oldEndByte ≤ o then some (e.startByte + e.inserted.length + (o - e.oldEndByte))
  else none

/-- Modelled from the spec: cumulative position adjustment of the
previous tree's ranges through an edit sequence ("shifting byte ranges
of all nodes positioned after an edit's old range by the new/old length
delta"), with damaged positions mapped to `none`.  The window width `L`
accounts for scanner lookahead: a token is only reusable when every byte
the scanner could examine for it is unaffected, which is what makes
splicing without re-lexing sound. -/
def adjustPos (L : Nat) : List Edit → Nat → Option Nat
  | [], o => some o
  | e :: es, o =>
    match adjustOne L e o with
    | some o2 => adjustPos L es o2
    | none => none

/-- Find a reusable previous token to splice at cursor `p`: an
undamaged, nonzero-width previous leaf whose adjusted start is exactly
`p` and which stays inside the new text. -/
def spliceFind (L : Nat) (E : List Edit) (oldToks : List Tok) (p len : Nat) : Option Tok :=
  oldToks.find? (fun t =>
    t.start < t.stop && p + (t.stop - t.start) ≤ len && adjustPos L E t.start == some p)

/-- Modelled from the spec: the reuse-driven tokenization of the
incremental reparser: at each cursor position "first consult the
previous tree" and splice an undamaged reusable leaf, "otherwise proceed
with normal lexing". -/
def incrTokGo (G : Grammar) (oldToks : List Tok) (E : List Edit) (text : List Nat) :
    Nat → Nat → List Tok
  | 0, _ => []
  | fuel + 1, p =>
    if p < text.length then
      match spliceFind (maxLook G) E oldToks p text.length with
      | some t =>
        ⟨t.sym, p, p + (t.stop - t.start)⟩ ::
          incrTokGo G oldToks E text fuel (p + (t.stop - t.start))
      | none =>
        let sn := scanNext G (fun _ => true) text p
        ⟨sn.1, p, p + sn.2⟩ :: incrTokGo G oldToks E text fuel (p + sn.2)
    else []

/-- Incremental tokenization of the whole new text. -/
def incrTok (G : Grammar) (oldToks : List Tok) (E : List Edit) (text : List Nat) : List Tok :=
  incrTokGo G oldToks E text text.length 0

/-- The one hard-failure class of the reparser. -/
inductive ReparseError
  | malformedEditSequence
deriving Repr, DecidableEq

/-- The nonzero-width leaves of a tree: exactly the tokens it was built
from (missing nodes are zero-width). -/
def treeTokens (tr : Tree) : List Tok :=
  (leaves tr.root).filter (fun t => t.start < t.stop)

/-- Modelled from the spec: `reparse(previous_tree, edits, new_text) ->
new_tree`: reject malformed edit sequences with an explicit failure and
no partial result; otherwise reuse undamaged previous leaves to drive
tokenization and run the engine over the result.  Subtree splicing is
modelled at leaf granularity. -/
def reparse (G : Grammar) (prev : Tree) (E : List Edit) (newText : List Nat) :
    Except ReparseError Tree :=
  if validEdits prev.srcLen E then
    .ok (parseFromTokens G (incrTok G (treeTokens prev) E newText) newText.length)
  else .error .malformedEditSequence

/-! ## Grammar-table handle and load-time version check -/

/-- The grammar-table ABI version this runtime supports. -/
def supportedAbiVersion : Nat := 14

/-- Modelled from the spec: the opaque handle returned by the binding
accessor (`tree_sitter_rigz`): the compiled table together with the
embedded "format/version identifier checked at load time". -/
structure LanguageHandle where
  abiVersion : Nat
  table : Grammar
deriving Repr, DecidableEq

/-- The load-time failure class. -/
inductive LoadError
  | versionMismatch
deriving Repr, DecidableEq

/-- Modelled from the spec: loading a grammar-table handle: "version/
format identifier disagreement at load time; fatal at initialization,
never at parse time". -/
def loadLanguage (h : LanguageHandle) : Except LoadError Grammar :=
  if h.abiVersion == supportedAbiVersion then .ok h.table
  else .error .versionMismatch

/-- The host pipeline: obtain the table from the handle at
initialization, then parse.  The only failure is the load-time version
check; `parse` itself is total into `Tree`. -/
def parseWithHandle (h : LanguageHandle) (text : List Nat) : Except LoadError Tree :=
  (loadLanguage h).map (fun G => parse G text)

end RigzParse

namespace RigzHeader

/-! ## The binding header, embedded

The declarations of `bindings/swift/TreeSitterRigz/rigz.h` and the
C-preprocessor behavior of its include guard. -/

/-- A C type, as far as the header needs: named types, const
qualification, pointers. -/
inductive CType
  | named (s : String)
  | constQ (t : CType)
  | ptr (t : CType)
deriving Repr, DecidableEq

/-- A C declaration: an opaque struct typedef or a function prototype. -/
inductive CDecl
  | typedefStruct (tag aliasName : String)
  | funcDecl (ret : CType) (name : String) (params : List CType)
deriving Repr, DecidableEq

/-- The declarations of rigz.h: `typedef struct TSLanguage TSLanguage;`
and `const TSLanguage *tree_sitter_rigz(void);`. -/
def rigzHeaderDecls : List CDecl :=
  [.typedefStruct "TSLanguage" "TSLanguage",
   .funcDecl (.ptr (.constQ (.named "TSLanguage"))) "tree_sitter_rigz" []]

/-- The include-guard macro of rigz.h. -/
def guardMacro : String := "TREE_SITTER_RIGZ_H_"

/-- Preprocessor state: the set of defined macro names. -/
structure PPState where
  defined : List String
deriving Repr, DecidableEq

/-- One `#include "rigz.h"`: the `#ifndef TREE_SITTER_RIGZ_H_` /
`#define TREE_SITTER_RIGZ_H_` guard emits the declarations only when
the guard macro is not yet defined. -/
def includeRigzOnce (st : PPState) : PPState × List CDecl :=
  if st.defined.contains guardMacro then (st, [])
  else (⟨guardMacro :: st.defined⟩, rigzHeaderDecls)

/-- `n` successive inclusions of rigz.h in one translation unit,
collecting all emitted declarations. -/
def includeRigzN : Nat → PPState → PPState × List CDecl
  | 0, st => (st, [])
  | n + 1, st =>
    let first := includeRigzOnce st
    let rest := includeRigzN n first.1
    (rest.1, first.2 ++ rest.2)

/-- Is a declaration a function prototype? -/
def isFunc : CDecl → Bool
  | .funcDecl _ _ _ => true
  | _ => false

/-- Does a C type grant only read access to the pointee: a pointer to a
const-qualified type? -/
def isConstPtr : CType → Bool
  | .ptr (.constQ _) => true
  | _ => false

/-- Parameter list of a function prototype (empty for non-functions). -/
def funcParams : CDecl → List CType
  | .funcDecl _ _ ps => ps
  | .typedefStruct _ _ => []

/-- Return type of a function prototype (the named type itself for a
typedef). -/
def funcRet : CDecl → CType
  | .funcDecl ret _ _ => ret
  | .typedefStruct tag _ => .named tag

end RigzHeader

namespace RigzParse

/-! ## A concrete example grammar (used by the witnesses): the spec's
Scenario 1 expression grammar, `expr := expr '+' expr | NUMBER`, over
bytes `'1' '2' '+'`.  Symbols: 0 ERROR, 1 NUMBER, 2 PLUS, 3 expr;
EOF symbol 9. -/

/-- A small expression grammar with its LR table. -/
def egGrammar : Grammar :=
  ⟨3, 9,
   [⟨1, [49], 1⟩, ⟨1, [50], 1⟩, ⟨2, [43], 1⟩],
   [⟨3, [3, 2, 3], 1, .left⟩, ⟨3, [1], 0, .nonassoc⟩],
   [(0, 1, [.shift 1]), (0, 3, [.shift 2]),
    (1, 9, [.reduce 1]), (1, 2, [.reduce 1]),
    (2, 2, [.shift 3]), (2, 9, [.accept]),
    (3, 1, [.shift 1]), (3, 3, [.shift 4]),
    (4, 2, [.reduce 0, .shift 3]), (4, 9, [.reduce 0])]⟩

/-- The Scenario 3 edit: replace byte range `[2, 3)` of `"1+2"` (the
`'2'`) with `'1'`. -/
def egEdit : Edit :=
  ⟨2, 3, 3, (0, 2), (0, 3), (0, 3), [49]⟩

/-- An overlapping (Scenario 4) edit pair: the second edit's
old_end_byte (1) is less than the first edit's new_end_byte (2). -/
def egBadEdits : List Edit :=
  [⟨1, 2, 2, (0, 1), (0, 2), (0, 2), [43]⟩,
   ⟨0, 1, 1, (0, 0), (0, 1), (0, 1), [50]⟩]

end RigzParse

namespace RigzParse

/-! ## Generic selection lemmas -/

theorem chooseBest_mem (better : α → α → Bool) :
    ∀ (l : List α) (a : α), chooseBest better a l = a ∨ chooseBest better a l ∈ l := by
  intro l
  induction l with
  | nil => intro a; exact Or.inl rfl
  | cons x xs ih =>
    intro a
    simp only [chooseBest]
    by_cases hb : better x a = true
    · rw [if_pos hb]
      rcases ih x with h | h
      · right; rw [h]; exact List.mem_cons_self x xs
      · exact Or.inr (List.mem_cons_of_mem x h)
    · rw [if_neg hb]
      rcases ih a with h | h
      · exact Or.inl h
      · exact Or.inr (List.mem_cons_of_mem x h)

theorem chooseBest_max (better : α → α → Bool) :
    ∀ (l : List α) (a : α),
      (∀ u v w, u ∈ a :: l → v ∈ a :: l → w ∈ a :: l →
        better u v = true → better v w = true → better u w = true) →
      (∀ u v, u ∈ a :: l → v ∈ a :: l → u ≠ v →
        better u v = true ∨ better v u = true) →
      ∀ y, y ∈ a :: l →
        y = chooseBest better a l ∨ better (chooseBest better a l) y = true := by
  intro l
  induction l with
  | nil =>
    intro a _ _ y hy
    rw [List.mem_singleton] at hy
    exact Or.inl hy
  | cons x xs ih =>
    intro a htrans htot y hy
    by_cases hb : better x a = true
    · have hcb : chooseBest better a (x :: xs) = chooseBest better x xs := by
        simp only [chooseBest, if_pos hb]
      have hsub : ∀ z, z ∈ x :: xs → z ∈ a :: x :: xs := fun z hz =>
        List.mem_cons_of_mem a hz
      have htrans2 : ∀ u v w, u ∈ x :: xs → v ∈ x :: xs → w ∈ x :: xs →
          better u v = true → better v w = true → better u w = true :=
        fun u v w hu hv hw => htrans u v w (hsub u hu) (hsub v hv) (hsub w hw)
      have htot2 : ∀ u v, u ∈ x :: xs → v ∈ x :: xs → u ≠ v →
          better u v = true ∨ better v u = true :=
        fun u v hu hv => htot u v (hsub u hu) (hsub v hv)
      have hcbmem : chooseBest better x xs ∈ a :: x :: xs := by
        rcases chooseBest_mem better xs x with h | h
        · rw [h]; exact hsub x (List.mem_cons_self x xs)
        · exact hsub _ (List.mem_cons_of_mem x h)
      rw [hcb]
      rcases List.mem_cons.mp hy with hy1 | hy1
      · subst hy1
        rcases ih x htrans2 htot2 x (List.mem_cons_self x xs) with h | h
        · right; rw [← h]; exact hb
        · right
          exact htrans _ _ _ hcbmem (hsub x (List.mem_cons_self x xs))
            (List.mem_cons_self y _) h hb
      · exact ih x htrans2 htot2 y hy1
    · have hcb : chooseBest better a (x :: xs) = chooseBest better a xs := by
        simp only [chooseBest, if_neg hb]
      have hsub : ∀ z, z ∈ a :: xs → z ∈ a :: x :: xs := by
        intro z hz
        rcases List.mem_cons.mp hz with hz1 | hz1
        · exact hz1 ▸ List.mem_cons_self a (x :: xs)
        · exact List.mem_cons_of_mem a (List.mem_cons_of_mem x hz1)
      have htrans2 : ∀ u v w, u ∈ a :: xs → v ∈ a :: xs → w ∈ a :: xs →
          better u v = true → better v w = true → better u w = true :=
        fun u v w hu hv hw => htrans u v w (hsub u hu) (hsub v hv) (hsub w hw)
      have htot2 : ∀ u v, u ∈ a :: xs → v ∈ a :: xs → u ≠ v →
          better u v = true ∨ better v u = true :=
        fun u v hu hv => htot u v (hsub u hu) (hsub v hv)
      have hcbmem : chooseBest better a xs ∈ a :: x :: xs := by
        rcases chooseBest_mem better xs a with h | h
        · rw [h]; exact List.mem_cons_self a (x :: xs)
        · exact List.mem_cons_of_mem a (List.mem_cons_of_mem x h)
      rw [hcb]
      rcases List.mem_cons.mp hy with hy1 | hy1
      · subst hy1
        exact ih y htrans2 htot2 y (List.mem_cons_self y xs)
      rcases List.mem_cons.mp hy1 with hy2 | hy2
      · subst hy2
        by_cases hxa : y = a
        · rw [hxa]
          exact ih a htrans2 htot2 a (List.mem_cons_self a xs)
        · rcases htot y a hy (List.mem_cons_self a (y :: xs)) hxa with h | h
          · exact absurd h hb
          · rcases ih a htrans2 htot2 a (List.mem_cons_self a xs) with h2 | h2
            · right; rw [← h2]; exact h
            · right
              exact htrans _ _ _ hcbmem (hsub a (List.mem_cons_self a xs)) hy h2 h
      · exact ih a htrans2 htot2 y (List.mem_cons_of_mem a hy2)

theorem lexKeyLt_trans (k1 k2 k3 : Int × Int × Int × Nat)
    (h1 : lexKeyLt k1 k2 = true) (h2 : lexKeyLt k2 k3 = true) :
    lexKeyLt k1 k3 = true := by
  obtain ⟨a1, b1, c1, d1⟩ := k1
  obtain ⟨a2, b2, c2, d2⟩ := k2
  obtain ⟨a3, b3, c3, d3⟩ := k3
  simp only [lexKeyLt, Bool.or_eq_true, Bool.and_eq_true, decide_eq_true_eq,
    beq_iff_eq] at h1 h2 ⊢
  omega

theorem lexKeyLt_total (k1 k2 : Int × Int × Int × Nat) :
    lexKeyLt k1 k2 = true ∨ lexKeyLt k2 k1 = true ∨ k1 = k2 := by
  obtain ⟨a1, b1, c1, d1⟩ := k1
  obtain ⟨a2, b2, c2, d2⟩ := k2
  simp only [lexKeyLt, Bool.or_eq_true, Bool.and_eq_true, decide_eq_true_eq,
    beq_iff_eq, Prod.mk.injEq]
  omega

theorem enum_inj (l : List α) (x y : Nat × α)
    (hx : x ∈ l.enum) (hy : y ∈ l.enum) (h : x.1 = y.1) : x = y := by
  rw [List.mem_enum_iff_getElem?] at hx hy
  rw [h] at hx
  rw [hx] at hy
  obtain ⟨i, a⟩ := x
  obtain ⟨j, b⟩ := y
  simp only at h
  subst h
  simp only [Option.some.injEq] at hy
  rw [hy]

/-! ## Scanner lemmas -/

theorem enum_snd_mem (l : List α) (ir : Nat × α) (h : ir ∈ l.enum) : ir.2 ∈ l := by
  rw [List.mem_enum_iff_getElem?] at h
  exact List.getElem?_mem h

theorem pattern_le_maxLook (G : Grammar) (r : TokenRule) (hr : r ∈ G.tokenRules) :
    r.pattern.length ≤ maxLook G := by
  have hfold : ∀ (l : List TokenRule), r ∈ l →
      r.pattern.length ≤ l.foldr (fun r2 m => max r2.pattern.length m) 0 := by
    intro l
    induction l with
    | nil => intro hl; cases hl
    | cons x xs ih =>
      intro hl
      rcases List.mem_cons.mp hl with h | h
      · subst h; exact Nat.le_max_left _ _
      · exact le_trans (ih h) (Nat.le_max_right _ _)
  exact le_trans (hfold _ hr) (Nat.le_max_right 1 _)

theorem scanCands_enum (G : Grammar) (V : Nat → Bool) (w : List Nat) (ir : Nat × TokenRule)
    (h : ir ∈ scanCands G V w) : ir ∈ G.tokenRules.enum :=
  List.mem_of_mem_filter h

theorem scanCands_props (G : Grammar) (V : Nat → Bool) (w : List Nat) (ir : Nat × TokenRule)
    (h : ir ∈ scanCands G V w) :
    V ir.2.sym = true ∧ ir.2.pattern ≠ [] ∧ ir.2.pattern <+: w := by
  have hp := (List.mem_filter.mp h).2
  simp only [Bool.and_eq_true, Bool.not_eq_true'] at hp
  obtain ⟨⟨hV, hne⟩, hpre⟩ := hp
  refine ⟨hV, ?_, List.isPrefixOf_iff_prefix.mp hpre⟩
  intro hnil
  rw [hnil] at hne
  simp at hne

theorem mem_scanCands_iff (G : Grammar) (V : Nat → Bool) (text : List Nat) (p : Nat)
    (ir : Nat × TokenRule) :
    ir ∈ scanCands G V (List.take (maxLook G) (List.drop p text)) ↔
      TokenMatch G V text p ir := by
  constructor
  · intro h
    obtain ⟨hV, hne, hpre⟩ := scanCands_props G V _ ir h
    exact ⟨scanCands_enum G V _ ir h, hV, hne,
      (List.prefix_take_iff.mp hpre).1⟩
  · rintro ⟨hmem, hV, hne, hpre⟩
    have hlen : ir.2.pattern.length ≤ maxLook G :=
      pattern_le_maxLook G ir.2 (enum_snd_mem _ _ hmem)
    have hw : ir.2.pattern <+: List.take (maxLook G) (List.drop p text) :=
      List.prefix_take_iff.mpr ⟨hpre, hlen⟩
    unfold scanCands
    rw [List.mem_filter]
    refine ⟨hmem, ?_⟩
    simp [List.isPrefixOf_iff_prefix, hw, hV, List.isEmpty_iff, hne]

theorem betterTok_trans (x y z : Nat × TokenRule)
    (h1 : betterTok x y = true) (h2 : betterTok y z = true) : betterTok x z = true :=
  lexKeyLt_trans _ _ _ h1 h2

theorem tokKey_inj_idx (x y : Nat × TokenRule) (h : tokKey x = tokKey y) : x.1 = y.1 := by
  simp only [tokKey, Prod.mk.injEq] at h
  exact h.2.2.2

theorem betterTok_total_mem (l : List TokenRule) (x y : Nat × TokenRule)
    (hx : x ∈ l.enum) (hy : y ∈ l.enum) (hne : x ≠ y) :
    betterTok x y = true ∨ betterTok y x = true := by
  rcases lexKeyLt_total (tokKey x) (tokKey y) with h | h | h
  · exact Or.inl h
  · exact Or.inr h
  · exact absurd (enum_inj l x y hx hy (tokKey_inj_idx x y h)) hne

theorem scanWindow_cases (G : Grammar) (V : Nat → Bool) (w : List Nat) :
    (scanCands G V w = [] ∧ scanWindow G V w = (0, 1)) ∨
    (∃ ir, ir ∈ scanCands G V w ∧ scanWindow G V w = (ir.2.sym, ir.2.pattern.length) ∧
      ∀ ir2 ∈ scanCands G V w, ir2 = ir ∨ betterTok ir ir2 = true) := by
  cases hc : scanCands G V w with
  | nil => exact Or.inl ⟨rfl, by simp [scanWindow, hc]⟩
  | cons c cs =>
    right
    refine ⟨chooseBest betterTok c cs, ?_, by simp [scanWindow, hc], ?_⟩
    · rcases chooseBest_mem betterTok cs c with h | h
      · rw [h]; exact List.mem_cons_self c cs
      · exact List.mem_cons_of_mem c h
    · intro ir2 hir2
      have hsubenum : ∀ z, z ∈ c :: cs → z ∈ G.tokenRules.enum := by
        intro z hz
        rw [← hc] at hz
        exact scanCands_enum G V w z hz
      refine chooseBest_max betterTok cs c ?_ ?_ ir2 hir2
      · intro u v w2 _ _ _ h1 h2
        exact betterTok_trans u v w2 h1 h2
      · intro u v hu hv hne
        exact betterTok_total_mem G.tokenRules u v (hsubenum u hu) (hsubenum v hv) hne

theorem scanNext_pos (G : Grammar) (V : Nat → Bool) (text : List Nat) (p : Nat) :
    1 ≤ (scanNext G V text p).2 := by
  unfold scanNext
  rcases scanWindow_cases G V (List.take (maxLook G) (List.drop p text)) with
    ⟨_, h⟩ | ⟨ir, hmem, h, _⟩
  · rw [h]
  · rw [h]
    obtain ⟨_, hne, _⟩ := scanCands_props G V _ ir hmem
    exact List.length_pos.mpr hne

theorem scanNext_le (G : Grammar) (V : Nat → Bool) (text : List Nat) (p : Nat)
    (hp : p < text.length) : p + (scanNext G V text p).2 ≤ text.length := by
  unfold scanNext
  rcases scanWindow_cases G V (List.take (maxLook G) (List.drop p text)) with
    ⟨_, h⟩ | ⟨ir, hmem, h, _⟩
  · rw [h]; omega
  · rw [h]
    obtain ⟨_, _, hpre⟩ := scanCands_props G V _ ir hmem
    have h2 : ir.2.pattern <+: List.drop p text := hpre.trans (List.take_prefix _ _)
    have h3 := h2.length_le
    rw [List.length_drop] at h3
    omega

/-! ## Tokenization lemmas -/

theorem tokenizeGo_chain (G : Grammar) (text : List Nat) :
    ∀ (fuel p : Nat), p ≤ text.length → text.length ≤ p + fuel →
      toksChain p text.length (tokenizeGo G text fuel p) = true := by
  intro fuel
  induction fuel with
  | zero =>
    intro p hp1 hp2
    have hpe : p = text.length := le_antisymm hp1 hp2
    simp [tokenizeGo, toksChain, hpe]
  | succ fuel ih =>
    intro p hp1 hp2
    by_cases h : p < text.length
    · have hpos := scanNext_pos G (fun _ => true) text p
      have hle := scanNext_le G (fun _ => true) text p h
      simp only [tokenizeGo, if_pos h, toksChain, Bool.and_eq_true, beq_iff_eq,
        decide_eq_true_eq]
      exact ⟨⟨by trivial, by omega⟩,
        ih (p + (scanNext G (fun _ => true) text p).2) hle (by omega)⟩
    · simp only [tokenizeGo, if_neg h, toksChain]
      have : p = text.length := by omega
      simp [this]

theorem tokenizeGo_selfScan (G : Grammar) (text : List Nat) :
    ∀ (fuel p : Nat) (t : Tok), t ∈ tokenizeGo G text fuel p →
      scanNext G (fun _ => true) text t.start = (t.sym, t.stop - t.start) := by
  intro fuel
  induction fuel with
  | zero => intro p t ht; simp [tokenizeGo] at ht
  | succ fuel ih =>
    intro p t ht
    by_cases h : p < text.length
    · simp only [tokenizeGo, if_pos h] at ht
      rcases List.mem_cons.mp ht with h1 | h1
      · rw [h1]
        simp only [Nat.add_sub_cancel_left]
      · exact ih _ t h1
    · simp [tokenizeGo, if_neg h] at ht

theorem tokenize_chain (G : Grammar) (text : List Nat) :
    toksChain 0 text.length (tokenize G text) = true :=
  tokenizeGo_chain G text text.length 0 (Nat.zero_le _) (by omega)

/-! ## Span-tiling lemmas -/

theorem spansB_append (l1 : List Node) :
    ∀ (s m e : Nat) (l2 : List Node), spansB s m l1 = true → spansB m e l2 = true →
      spansB s e (l1 ++ l2) = true := by
  induction l1 with
  | nil =>
    intro s m e l2 h1 h2
    simp only [spansB, beq_iff_eq] at h1
    rw [List.nil_append, h1]
    exact h2
  | cons c cs ih =>
    intro s m e l2 h1 h2
    simp only [spansB, Bool.and_eq_true] at h1
    obtain ⟨⟨hs, hwf⟩, hrest⟩ := h1
    simp only [List.cons_append, spansB, Bool.and_eq_true]
    exact ⟨⟨hs, hwf⟩, ih _ _ _ _ hrest h2⟩

theorem spansB_split (l1 : List Node) :
    ∀ (s e : Nat) (l2 : List Node), spansB s e (l1 ++ l2) = true →
      ∃ m, spansB s m l1 = true ∧ spansB m e l2 = true := by
  induction l1 with
  | nil =>
    intro s e l2 h
    exact ⟨s, by simp [spansB], h⟩
  | cons c cs ih =>
    intro s e l2 h
    simp only [List.cons_append, spansB, Bool.and_eq_true] at h
    obtain ⟨⟨hs, hwf⟩, hrest⟩ := h
    obtain ⟨m, h1, h2⟩ := ih _ _ _ hrest
    refine ⟨m, ?_, h2⟩
    simp only [spansB, Bool.and_eq_true]
    exact ⟨⟨hs, hwf⟩, h1⟩

theorem spansB_getLast (l : List Node) :
    ∀ (s e : Nat), spansB s e l = true →
      ((l.getLast?).map nodeEnd).getD s = e := by
  induction l with
  | nil =>
    intro s e h
    simp only [spansB, beq_iff_eq] at h
    simpa using h
  | cons c cs ih =>
    intro s e h
    simp only [spansB, Bool.and_eq_true] at h
    obtain ⟨⟨hs, hwf⟩, hrest⟩ := h
    cases cs with
    | nil =>
      simp only [spansB, beq_iff_eq] at hrest
      simpa using hrest
    | cons d ds =>
      have hih := ih _ _ hrest
      cases hgl : (d :: ds).getLast? with
      | none =>
        rw [List.getLast?_eq_none_iff] at hgl
        cases hgl
      | some g =>
        rw [hgl] at hih
        simp only [Option.map_some', Option.getD_some] at hih
        rw [List.getLast?_cons_cons, hgl]
        simpa using hih

theorem spansB_push (stack : List Node) (p q : Nat) (n : Node)
    (hs : spansB 0 p stack.reverse = true) (hn : wfNode n = true)
    (h1 : nodeStart n = p) (h2 : nodeEnd n = q) :
    spansB 0 q (n :: stack).reverse = true := by
  rw [List.reverse_cons]
  apply spansB_append _ _ _ _ _ hs
  simp [spansB, h1, h2, hn]

theorem dump_spans :
    ∀ (toks : List Tok) (p len : Nat), toksChain p len toks = true →
      spansB p len (toks.map errLeaf) = true := by
  intro toks
  induction toks with
  | nil =>
    intro p len h
    simp only [toksChain] at h
    simpa [spansB] using h
  | cons t ts ih =>
    intro p len h
    simp only [toksChain, Bool.and_eq_true, beq_iff_eq, decide_eq_true_eq] at h
    obtain ⟨⟨hs, hlt⟩, hrest⟩ := h
    simp only [List.map_cons, spansB, Bool.and_eq_true]
    refine ⟨⟨?_, ?_⟩, ?_⟩
    · simp [errLeaf, nodeStart, hs]
    · simp [errLeaf, wfNode]
      omega
    · simpa [errLeaf, nodeEnd] using ih _ _ hrest

theorem stack_top_end (stack : List Node) (p : Nat)
    (hs : spansB 0 p stack.reverse = true) :
    ((stack.head?).map nodeEnd).getD 0 = p := by
  have h := spansB_getLast _ _ _ hs
  rwa [List.getLast?_reverse] at h

theorem reduceNode_spans (rule : Rule) (stack : List Node) (p : Nat)
    (hs : spansB 0 p stack.reverse = true) :
    spansB 0 p (reduceNode rule stack p :: stack.drop rule.rhs.length).reverse = true := by
  have hsplit : stack.reverse = (stack.drop rule.rhs.length).reverse ++
      (stack.take rule.rhs.length).reverse := by
    rw [← List.reverse_append, List.take_append_drop]
  rw [hsplit] at hs
  obtain ⟨m, h1, h2⟩ := spansB_split _ _ _ _ hs
  cases htk : (stack.take rule.rhs.length).reverse with
  | nil =>
    rw [htk] at h2
    simp only [spansB, beq_iff_eq] at h2
    have htk0 : stack.take rule.rhs.length = [] := by
      rwa [List.reverse_eq_nil_iff] at htk
    apply spansB_push _ m p _ h1
    · simp [reduceNode, htk0, wfNode, spansB]
    · simp [reduceNode, htk0, nodeStart, h2]
    · simp [reduceNode, htk0, nodeEnd]
  | cons c cs =>
    rw [htk] at h2
    have hhead : (stack.take rule.rhs.length).head? = (c :: cs).getLast? := by
      rw [← htk, List.getLast?_reverse]
    have h2b := h2
    simp only [spansB, Bool.and_eq_true, beq_iff_eq] at h2b
    obtain ⟨⟨hcs, hcwf⟩, hrest⟩ := h2b
    have hlast := spansB_getLast _ _ _ h2
    cases hgl : (c :: cs).getLast? with
    | none => rw [List.getLast?_eq_none_iff] at hgl; cases hgl
    | some g =>
      rw [hgl] at hlast
      simp only [Option.map_some', Option.getD_some] at hlast
      apply spansB_push _ m p _ h1
      · simp only [reduceNode, htk, hhead, hgl, List.head?_cons, wfNode]
        rw [hcs, hlast]
        exact h2
      · rw [show nodeStart (reduceNode rule stack p) = nodeStart c from by
          simp [reduceNode, htk, List.head?_cons, nodeStart]]
        exact hcs
      · rw [show nodeEnd (reduceNode rule stack p) = nodeEnd g from by
          simp [reduceNode, hhead, hgl, nodeEnd]]
        exact hlast

theorem engineGo_spans (G : Grammar) :
    ∀ (fuel : Nat) (toks : List Tok) (stack : List Node) (states : List Nat) (p len : Nat),
      toksChain p len toks = true → spansB 0 p stack.reverse = true →
      spansB 0 len (engineGo G fuel toks stack states).reverse = true := by
  intro fuel
  induction fuel with
  | zero =>
    intro toks stack states p len hchain hspans
    cases toks with
    | nil =>
      simp only [toksChain, beq_iff_eq] at hchain
      rw [engineGo]
      exact hchain ▸ hspans
    | cons t ts =>
      rw [engineGo, dumpErrs, List.reverse_append, List.reverse_reverse]
      exact spansB_append _ _ _ _ _ hspans (dump_spans _ _ _ hchain)
  | succ fuel ih =>
    intro toks stack states p len hchain hspans
    cases toks with
    | nil =>
      simp only [toksChain, beq_iff_eq] at hchain
      subst hchain
      simp only [engineGo]
      split
      · split
        · split
          · rename_i rule hrule hk
            rw [stack_top_end stack p hspans]
            exact ih [] _ _ p p (by simp [toksChain]) (reduceNode_spans rule stack p hspans)
          · exact hspans
        · exact hspans
      · exact hspans
    | cons t ts =>
      simp only [toksChain, Bool.and_eq_true, beq_iff_eq, decide_eq_true_eq] at hchain
      obtain ⟨⟨hts, hlt⟩, hrest⟩ := hchain
      have hpushShift :
          spansB 0 t.stop ((Node.leaf t.sym t.start t.stop (t.sym == 0) false) :: stack).reverse
            = true := by
        apply spansB_push _ p _ _ hspans
        · simp only [wfNode, decide_eq_true_eq]; omega
        · simpa [nodeStart] using hts
        · simp [nodeEnd]
      have hpushErr : spansB 0 t.stop (errLeaf t :: stack).reverse = true := by
        apply spansB_push _ p _ _ hspans
        · simp only [errLeaf, wfNode, decide_eq_true_eq]; omega
        · simpa [errLeaf, nodeStart] using hts
        · simp [errLeaf, nodeEnd]
      simp only [engineGo]
      split
      · exact ih ts _ _ t.stop len hrest hpushShift
      · split
        · split
          · rename_i rule hrule hk
            refine ih (t :: ts) _ _ p len (by simp [toksChain, hts, hlt, hrest]) ?_
            rw [hts]
            exact reduceNode_spans rule stack p hspans
          · exact ih ts _ _ t.stop len hrest hpushErr
        · exact ih ts _ _ t.stop len hrest hpushErr
      · exact ih ts _ _ t.stop len hrest hpushErr
      · split
        · refine ih (t :: ts) _ _ p len (by simp [toksChain, hts, hlt, hrest]) ?_
          apply spansB_push _ p p _ hspans
          · simp [wfNode]
          · simpa [nodeStart] using hts
          · simpa [nodeEnd] using hts
        · exact ih ts _ _ t.stop len hrest hpushErr

theorem parseFromTokens_wf (G : Grammar) (toks : List Tok) (len : Nat)
    (hchain : toksChain 0 len toks = true) :
    wfNode (parseFromTokens G toks len).root = true ∧
      nodeStart (parseFromTokens G toks len).root = 0 ∧
      nodeEnd (parseFromTokens G toks len).root = len ∧
      nodeSym (parseFromTokens G toks len).root = G.start := by
  have hs : spansB 0 len (engineGo G (engineFuel toks len) toks [] [0]).reverse = true :=
    engineGo_spans G _ toks [] [0] 0 len hchain (by simp [spansB])
  simp only [parseFromTokens]
  split
  · rename_i n heq
    split
    · rename_i hguard
      rw [heq] at hs
      simp only [spansB, Bool.and_eq_true, beq_iff_eq] at hs
      obtain ⟨⟨hst, hwf⟩, hend⟩ := hs
      simp only [Bool.and_eq_true, beq_iff_eq] at hguard
      obtain ⟨⟨hsym, h0⟩, hlen⟩ := hguard
      exact ⟨hwf, hst, hend, hsym⟩
    · rw [heq] at hs
      refine ⟨?_, rfl, rfl, rfl⟩
      simp only [wfNode]
      exact hs
  · refine ⟨?_, rfl, rfl, rfl⟩
    simp only [wfNode]
    exact hs

/-! ## Leaf lemmas -/

theorem leavesList_append (l1 l2 : List Node) :
    leavesList (l1 ++ l2) = leavesList l1 ++ leavesList l2 := by
  induction l1 with
  | nil => simp [leavesList]
  | cons c cs ih =>
    simp only [List.cons_append, leavesList, List.append_eq, ih, List.append_assoc]

theorem leavesCover_append (l1 : List Tok) :
    ∀ (s m e : Nat) (l2 : List Tok), leavesCover s m l1 = true →
      leavesCover m e l2 = true → leavesCover s e (l1 ++ l2) = true := by
  induction l1 with
  | nil =>
    intro s m e l2 h1 h2
    simp only [leavesCover, beq_iff_eq] at h1
    rw [List.nil_append, h1]
    exact h2
  | cons t ts ih =>
    intro s m e l2 h1 h2
    simp only [leavesCover, Bool.and_eq_true] at h1
    obtain ⟨⟨hs, hle⟩, hrest⟩ := h1
    simp only [List.cons_append, leavesCover, Bool.and_eq_true]
    exact ⟨⟨hs, hle⟩, ih _ _ _ _ hrest h2⟩

mutual

theorem wfNode_cover : ∀ (n : Node), wfNode n = true →
    leavesCover (nodeStart n) (nodeEnd n) (leaves n) = true
  | .leaf sym s e er mi, h => by
    simp only [wfNode, decide_eq_true_eq] at h
    simp [leaves, leavesCover, nodeStart, nodeEnd, h]
  | .node sym s e er cs, h => by
    simp only [wfNode] at h
    simp only [leaves, nodeStart, nodeEnd]
    exact spansB_cover cs s e h

theorem spansB_cover : ∀ (l : List Node) (s e : Nat), spansB s e l = true →
    leavesCover s e (leavesList l) = true
  | [], s, e, h => by
    simp only [spansB, beq_iff_eq] at h
    simp [leavesList, leavesCover, h]
  | c :: cs, s, e, h => by
    simp only [spansB, Bool.and_eq_true, beq_iff_eq] at h
    obtain ⟨⟨hcs, hcwf⟩, hrest⟩ := h
    simp only [leavesList]
    exact leavesCover_append _ _ _ _ _ (hcs ▸ wfNode_cover c hcwf)
      (spansB_cover cs _ _ hrest)

end

mutual

theorem structEq_refl : ∀ (n : Node), structEq n n = true
  | .leaf sym s e er mi => by simp [structEq]
  | .node sym s e er cs => by
    have h := structEqList_refl cs
    simp [structEq, h]

theorem structEqList_refl : ∀ (l : List Node), structEqList l l = true
  | [] => rfl
  | c :: cs => by
    simp only [structEqList, Bool.and_eq_true]
    exact ⟨structEq_refl c, structEqList_refl cs⟩

end

/-! ## Token-leaves invariant: the nonzero-width leaves of the built
tree are exactly the consumed token stream -/

theorem leavesList_dump (toks : List Tok) : leavesList (toks.map errLeaf) = toks := by
  induction toks with
  | nil => rfl
  | cons t ts ih => simp [leavesList, leaves, errLeaf, ih]

theorem chain_filter :
    ∀ (toks : List Tok) (p len : Nat), toksChain p len toks = true →
      toks.filter (fun t => decide (t.start < t.stop)) = toks := by
  intro toks
  induction toks with
  | nil => intro p len _; rfl
  | cons t ts ih =>
    intro p len h
    simp only [toksChain, Bool.and_eq_true, beq_iff_eq, decide_eq_true_eq] at h
    obtain ⟨⟨hs, hlt⟩, hrest⟩ := h
    have hd : decide (t.start < t.stop) = true := by
      simp only [decide_eq_true_eq]; omega
    simp [List.filter_cons, hd, ih _ _ hrest]

theorem leavesList_reduce (rule : Rule) (stack : List Node) (pos : Nat) :
    leavesList ((reduceNode rule stack pos :: stack.drop rule.rhs.length).reverse) =
      leavesList stack.reverse := by
  conv_rhs => rw [show stack.reverse = (stack.drop rule.rhs.length).reverse ++
      (stack.take rule.rhs.length).reverse from by
    rw [← List.reverse_append, List.take_append_drop]]
  rw [List.reverse_cons, leavesList_append, leavesList_append]
  congr 1
  simp [leavesList, leaves, reduceNode]

theorem engineGo_tokens (G : Grammar) :
    ∀ (fuel : Nat) (toks : List Tok) (stack : List Node) (states : List Nat) (p len : Nat),
      toksChain p len toks = true →
      (leavesList ((engineGo G fuel toks stack states).reverse)).filter
          (fun t => decide (t.start < t.stop)) =
        (leavesList stack.reverse).filter (fun t => decide (t.start < t.stop)) ++ toks := by
  intro fuel
  induction fuel with
  | zero =>
    intro toks stack states p len hchain
    cases toks with
    | nil => rw [engineGo]; simp
    | cons t ts =>
      rw [engineGo, dumpErrs, List.reverse_append, List.reverse_reverse,
        leavesList_append, List.filter_append, leavesList_dump,
        chain_filter _ _ _ hchain]
  | succ fuel ih =>
    intro toks stack states p len hchain
    cases toks with
    | nil =>
      simp only [engineGo]
      split
      · split
        · split
          · rename_i rule hrule hk
            rw [ih [] _ _ p p (by simp [toksChain]), leavesList_reduce]
          · simp
        · simp
      · simp
    | cons t ts =>
      have hchain2 := hchain
      simp only [toksChain, Bool.and_eq_true, beq_iff_eq, decide_eq_true_eq] at hchain2
      obtain ⟨⟨hts, hlt⟩, hrest⟩ := hchain2
      have hd : decide (t.start < t.stop) = true := by
        simp only [decide_eq_true_eq]; omega
      have hpushT :
          (leavesList ((Node.leaf t.sym t.start t.stop (t.sym == 0) false :: stack).reverse)).filter
            (fun t2 => decide (t2.start < t2.stop)) =
          (leavesList stack.reverse).filter (fun t2 => decide (t2.start < t2.stop)) ++ [t] := by
        rw [List.reverse_cons, leavesList_append, List.filter_append]
        simp [leavesList, leaves, List.filter_cons, hd]
      have hpushE :
          (leavesList ((errLeaf t :: stack).reverse)).filter
            (fun t2 => decide (t2.start < t2.stop)) =
          (leavesList stack.reverse).filter (fun t2 => decide (t2.start < t2.stop)) ++ [t] := by
        rw [List.reverse_cons, leavesList_append, List.filter_append]
        simp [leavesList, leaves, errLeaf, List.filter_cons, hd]
      simp only [engineGo]
      split
      · rw [ih ts _ _ t.stop len hrest, hpushT]
        simp
      · split
        · split
          · rename_i rule hrule hk
            rw [ih (t :: ts) _ _ p len hchain, leavesList_reduce]
          · rw [ih ts _ _ t.stop len hrest, hpushE]
            simp
        · rw [ih ts _ _ t.stop len hrest, hpushE]
          simp
      · rw [ih ts _ _ t.stop len hrest, hpushE]
        simp
      · split
        · rw [ih (t :: ts) _ _ p len hchain]
          congr 1
          rw [List.reverse_cons, leavesList_append, List.filter_append]
          simp [leavesList, leaves, List.filter_cons]
        · rw [ih ts _ _ t.stop len hrest, hpushE]
          simp

theorem treeTokens_parseFromTokens (G : Grammar) (toks : List Tok) (len : Nat)
    (hchain : toksChain 0 len toks = true) :
    treeTokens (parseFromTokens G toks len) = toks := by
  have he := engineGo_tokens G (engineFuel toks len) toks [] [0] 0 len hchain
  simp only [List.reverse_nil, leavesList, List.filter_nil, List.nil_append] at he
  unfold treeTokens
  simp only [parseFromTokens]
  split
  · rename_i n heq
    rw [heq] at he
    simp only [leavesList, List.append_nil] at he
    split
    · exact he
    · simpa [leaves, leavesList] using he
  · simpa [leaves] using he

theorem treeTokens_parse (G : Grammar) (text : List Nat) :
    treeTokens (parse G text) = tokenize G text := by
  unfold parse
  exact treeTokens_parseFromTokens G _ _ (tokenize_chain G text)

/-! ## Edit-window lemmas: an undamaged scanner window is byte-for-byte
preserved by the edit sequence -/

theorem applyEdit_length (text : List Nat) (e : Edit)
    (h1 : e.startByte ≤ e.oldEndByte) (h2 : e.oldEndByte ≤ text.length) :
    (applyEdit text e).length =
      e.startByte + e.inserted.length + (text.length - e.oldEndByte) := by
  simp only [applyEdit, List.length_append, List.length_take, List.length_drop]
  omega

theorem adjustOne_window (L : Nat) (e : Edit) (text : List Nat) (o p : Nat)
    (h1 : e.startByte ≤ e.oldEndByte) (h2 : e.oldEndByte ≤ text.length)
    (ha : adjustOne L e o = some p) :
    List.take L (List.drop p (applyEdit text e)) = List.take L (List.drop o text) := by
  have hsl : e.startByte ≤ text.length := le_trans h1 h2
  have hA : (text.take e.startByte).length = e.startByte := by
    rw [List.length_take]; omega
  unfold adjustOne at ha
  split at ha
  · rename_i hle
    simp only [Option.some.injEq] at ha
    subst ha
    unfold applyEdit
    rw [List.drop_append_of_le_length (by rw [List.length_append, hA]; omega),
      List.drop_append_of_le_length (by rw [hA]; omega),
      List.take_append_of_le_length (by rw [List.length_append, List.length_drop, hA]; omega),
      List.take_append_of_le_length (by rw [List.length_drop, hA]; omega),
      List.drop_take, List.take_take]
    congr 1
    omega
  · split at ha
    · rename_i hno hge
      simp only [Option.some.injEq] at ha
      subst ha
      unfold applyEdit
      rw [show e.startByte + e.inserted.length + (o - e.oldEndByte) =
          (text.take e.startByte ++ e.inserted).length + (o - e.oldEndByte) from by
        rw [List.length_append, hA]]
      rw [List.drop_append, List.drop_drop]
      congr 2
      omega
    · cases ha

theorem adjustPos_window (L : Nat) :
    ∀ (E : List Edit) (text : List Nat) (minS o p : Nat),
      validEditsFrom minS text.length E = true → adjustPos L E o = some p →
      List.take L (List.drop p (applyEdits text E)) = List.take L (List.drop o text) := by
  intro E
  induction E with
  | nil =>
    intro text minS o p _ ha
    simp only [adjustPos, Option.some.injEq] at ha
    subst ha
    rfl
  | cons e es ih =>
    intro text minS o p hv ha
    simp only [validEditsFrom, Bool.and_eq_true, beq_iff_eq, decide_eq_true_eq] at hv
    obtain ⟨⟨⟨⟨hmin, h1⟩, h2⟩, hnewEq⟩, hrest⟩ := hv
    simp only [adjustPos] at ha
    split at ha
    · rename_i o2 hone
      have hv2 : validEditsFrom e.newEndByte (applyEdit text e).length es = true := by
        rw [applyEdit_length text e h1 h2]
        exact hrest
      calc List.take L (List.drop p (applyEdits text (e :: es)))
          = List.take L (List.drop o2 (applyEdit text e)) := ih _ _ o2 p hv2 ha
        _ = List.take L (List.drop o text) := adjustOne_window L e text o o2 h1 h2 hone
    · cases ha

/-! ## Incremental tokenization equals from-scratch tokenization -/

theorem incrTokGo_eq (G : Grammar) (oldText : List Nat) (oldToks : List Tok) (E : List Edit)
    (newText : List Nat)
    (hnew : newText = applyEdits oldText E)
    (hv : validEditsFrom 0 oldText.length E = true)
    (hself : ∀ t ∈ oldToks,
      scanNext G (fun _ => true) oldText t.start = (t.sym, t.stop - t.start)) :
    ∀ (fuel p : Nat),
      incrTokGo G oldToks E newText fuel p = tokenizeGo G newText fuel p := by
  intro fuel
  induction fuel with
  | zero => intro p; rfl
  | succ fuel ih =>
    intro p
    by_cases hp : p < newText.length
    · simp only [incrTokGo, tokenizeGo, if_pos hp]
      split
      · rename_i t hsp
        have hPred := List.find?_some hsp
        have hMem := List.mem_of_find?_eq_some hsp
        simp only [Bool.and_eq_true, decide_eq_true_eq, beq_iff_eq] at hPred
        obtain ⟨⟨hlt, hle⟩, hadj⟩ := hPred
        have hwin := adjustPos_window (maxLook G) E oldText 0 t.start p hv hadj
        have hscan : scanNext G (fun _ => true) newText p =
            scanNext G (fun _ => true) oldText t.start := by
          unfold scanNext
          rw [hnew, hwin]
        rw [hscan, hself t hMem, ih]
      · rw [ih]
    · simp [incrTokGo, tokenizeGo, if_neg hp]

theorem parseFromTokens_srcLen (G : Grammar) (toks : List Tok) (len : Nat) :
    (parseFromTokens G toks len).srcLen = len := by
  simp only [parseFromTokens]
  split
  · split
    · rfl
    · rfl
  · rfl

theorem parse_srcLen (G : Grammar) (text : List Nat) :
    (parse G text).srcLen = text.length :=
  parseFromTokens_srcLen G _ _

theorem reparse_ok_eq (G : Grammar) (T : List Nat) (E : List Edit)
    (hv : validEdits T.length E = true) :
    reparse G (parse G T) E (applyEdits T E) = .ok (parse G (applyEdits T E)) := by
  unfold reparse
  rw [parse_srcLen, if_pos hv, treeTokens_parse]
  unfold incrTok
  rw [incrTokGo_eq G T (tokenize G T) E (applyEdits T E) rfl hv
    (fun t ht => tokenizeGo_selfScan G T _ _ t ht)]
  rfl

/-! ## The incremental token stream also tiles the new text -/

theorem incrTokGo_chain (G : Grammar) (oldToks : List Tok) (E : List Edit) (text : List Nat) :
    ∀ (fuel p : Nat), p ≤ text.length → text.length ≤ p + fuel →
      toksChain p text.length (incrTokGo G oldToks E text fuel p) = true := by
  intro fuel
  induction fuel with
  | zero =>
    intro p h1 h2
    have hpe : p = text.length := le_antisymm h1 h2
    simp [incrTokGo, toksChain, hpe]
  | succ fuel ih =>
    intro p h1 h2
    by_cases hp : p < text.length
    · simp only [incrTokGo, if_pos hp]
      split
      · rename_i t hsp
        have hPred := List.find?_some hsp
        simp only [Bool.and_eq_true, decide_eq_true_eq, beq_iff_eq] at hPred
        obtain ⟨⟨hlt, hle⟩, _⟩ := hPred
        simp only [toksChain, Bool.and_eq_true, beq_iff_eq, decide_eq_true_eq]
        exact ⟨⟨by trivial, by omega⟩, ih _ hle (by omega)⟩
      · have hpos := scanNext_pos G (fun _ => true) text p
        have hle := scanNext_le G (fun _ => true) text p hp
        simp only [toksChain, Bool.and_eq_true, beq_iff_eq, decide_eq_true_eq]
        exact ⟨⟨by trivial, by omega⟩, ih _ hle (by omega)⟩
    · simp only [incrTokGo, if_neg hp, toksChain]
      have hpe : p = text.length := by omega
      simp [hpe]

theorem reparse_wf (G : Grammar) (prev : Tree) (E : List Edit) (newText : List Nat)
    (t : Tree) (h : reparse G prev E newText = .ok t) :
    wfNode t.root = true ∧ nodeStart t.root = 0 ∧
      nodeEnd t.root = newText.length ∧ nodeSym t.root = G.start := by
  unfold reparse at h
  split at h
  · simp only [Except.ok.injEq] at h
    subst h
    exact parseFromTokens_wf G _ _
      (incrTokGo_chain G _ E newText newText.length 0 (Nat.zero_le _) (by omega))
  · cases h

/-! ## Conflict-resolution lemmas -/

theorem lexKeyLt_asymm (k1 k2 : Int × Int × Int × Nat)
    (h1 : lexKeyLt k1 k2 = true) (h2 : lexKeyLt k2 k1 = true) : False := by
  obtain ⟨a1, b1, c1, d1⟩ := k1
  obtain ⟨a2, b2, c2, d2⟩ := k2
  simp only [lexKeyLt, Bool.or_eq_true, Bool.and_eq_true, decide_eq_true_eq,
    beq_iff_eq] at h1 h2
  omega

theorem actKey_inj_idx (G : Grammar) (tp : Int) (x y : Nat × PAction)
    (h : actKey G tp x = actKey G tp y) : x.1 = y.1 := by
  simp only [actKey, Prod.mk.injEq] at h
  exact h.2.2.2

theorem actMax_unique (G : Grammar) (tp : Int) (acts : List PAction)
    (ia jb : Nat × PAction) (h1 : ActMax G tp acts ia) (h2 : ActMax G tp acts jb) :
    ia = jb := by
  obtain ⟨hmem1, hmax1⟩ := h1
  obtain ⟨hmem2, hmax2⟩ := h2
  rcases hmax1 jb hmem2 with h | h
  · exact h.symm
  · rcases hmax2 ia hmem1 with h3 | h3
    · exact h3
    · exact absurd h3 (fun h4 => lexKeyLt_asymm _ _ h h4)

theorem resolveAction_max (G : Grammar) (tp : Int) (acts : List PAction) (a : PAction)
    (h : resolveAction G tp acts = some a) :
    ∃ ia, ia.2 = a ∧ ActMax G tp acts ia := by
  unfold resolveAction at h
  split at h
  · cases h
  · rename_i c cs henum
    simp only [Option.some.injEq] at h
    refine ⟨chooseBest (betterAct G tp) c cs, h, ?_, ?_⟩
    · rcases chooseBest_mem (betterAct G tp) cs c with h2 | h2
      · rw [henum, h2]; exact List.mem_cons_self _ _
      · rw [henum]; exact List.mem_cons_of_mem _ h2
    · intro jb hjb
      rw [henum] at hjb
      refine chooseBest_max (betterAct G tp) cs c ?_ ?_ jb hjb
      · intro u v w _ _ _ hu hv
        exact lexKeyLt_trans _ _ _ hu hv
      · intro u v hu hv hne
        have hu2 : u ∈ acts.enum := by rw [henum]; exact hu
        have hv2 : v ∈ acts.enum := by rw [henum]; exact hv
        rcases lexKeyLt_total (actKey G tp u) (actKey G tp v) with h3 | h3 | h3
        · exact Or.inl h3
        · exact Or.inr h3
        · exact absurd (enum_inj acts u v hu2 hv2 (actKey_inj_idx G tp u v h3)) hne

end RigzParse

namespace RigzHeader

theorem includeRigzN_defined : ∀ (m : Nat) (st : PPState),
    st.defined.contains guardMacro = true →
    includeRigzN m st = (st, []) := by
  intro m
  induction m with
  | zero => intro st _; rfl
  | succ m ih =>
    intro st h
    have h1 : includeRigzOnce st = (st, []) := by
      unfold includeRigzOnce
      rw [h]
      simp
    simp only [includeRigzN, h1, ih st h, List.nil_append]

end RigzHeader

namespace RigzParse

/-! ## Claims -/

/-- C1: For every text `T`, every valid (in-order, non-overlapping) edit
sequence `E`, and the previous tree obtained by parsing `T`, the tree
returned by `reparse (parse T) E (apply T E)` equals the tree returned
by a from-scratch parse of `apply T E`: incremental reparsing never
changes the result, only the work done. -/
theorem claim_C1_incremental_equivalence (G : Grammar) (T : List Nat) (E : List Edit)
    (hv : validEdits T.length E = true) :
    reparse G (parse G T) E (applyEdits T E) = .ok (parse G (applyEdits T E)) :=
  reparse_ok_eq G T E hv

/-- Witness for C1 at the spec's Scenario 3 instance: text `"1+2"`, the
valid edit replacing `'2'` with `'1'`. -/
theorem claim_C1_witness :
    validEdits ([49, 43, 50] : List Nat).length [egEdit] = true ∧
      reparse egGrammar (parse egGrammar [49, 43, 50]) [egEdit]
          (applyEdits [49, 43, 50] [egEdit]) =
        .ok (parse egGrammar (applyEdits [49, 43, 50] [egEdit])) :=
  ⟨by decide,
   claim_C1_incremental_equivalence egGrammar [49, 43, 50] [egEdit] (by decide)⟩

/-- C2: For every input byte sequence, the leaf node ranges of the tree
produced by `parse` (including ERROR spans and zero-width missing nodes)
partition the full input byte range `[0, length)`: their concatenation
in order covers every byte exactly once, with no gaps and no
overlaps. -/
theorem claim_C2_total_coverage (G : Grammar) (text : List Nat) :
    leavesCover 0 text.length (leaves (parse G text).root) = true := by
  obtain ⟨hwf, hst, hend, _⟩ :=
    parseFromTokens_wf G (tokenize G text) text.length (tokenize_chain G text)
  have h := wfNode_cover _ hwf
  rw [hst, hend] at h
  unfold parse
  exact h

/-- C3: `parse` is a total function over arbitrary byte sequences (its
codomain is `Tree`, with no failure path): for every input, including
syntactically invalid input, it returns a complete tree rooted at the
start symbol and spanning the whole input; lexical and syntactic
mismatches are expressed only as error-flagged tree content. -/
theorem claim_C3_total_parse (G : Grammar) (text : List Nat) :
    nodeSym (parse G text).root = G.start ∧ nodeStart (parse G text).root = 0 ∧
      nodeEnd (parse G text).root = text.length := by
  obtain ⟨_, hst, hend, hsym⟩ :=
    parseFromTokens_wf G (tokenize G text) text.length (tokenize_chain G text)
  unfold parse
  exact ⟨hsym, hst, hend⟩

/-- C4: Parsing is deterministic: `parse` is a pure function, so two
invocations on the same Grammar Table and bytes yield structurally
identical trees; and the conflict-resolution order (precedence, then
associativity, then rule declaration order) makes every automaton step
a function of the current state and token: a maximal candidate action is
unique, and the resolver always picks a maximal one. -/
theorem claim_C4_determinism (G : Grammar) (text : List Nat) :
    structEq (parse G text).root (parse G text).root = true ∧
      (∀ (tp : Int) (acts : List PAction) (ia jb : Nat × PAction),
        ActMax G tp acts ia → ActMax G tp acts jb → ia = jb) ∧
      (∀ (tp : Int) (acts : List PAction) (a : PAction),
        resolveAction G tp acts = some a → ∃ ia, ia.2 = a ∧ ActMax G tp acts ia) :=
  ⟨structEq_refl _,
   fun tp acts ia jb h1 h2 => actMax_unique G tp acts ia jb h1 h2,
   fun tp acts a h => resolveAction_max G tp acts a h⟩

/-- Witness for C4: the example grammar's shift/reduce conflict
`[reduce 0, shift 3]` at precedence 1 resolves (left-associativity
prefers the reduce) to a maximal candidate. -/
theorem claim_C4_witness :
    structEq (parse egGrammar [49, 43, 50]).root (parse egGrammar [49, 43, 50]).root = true ∧
      (∃ ia, ia.2 = PAction.reduce 0 ∧
        ActMax egGrammar 1 [PAction.reduce 0, PAction.shift 3] ia) :=
  ⟨(claim_C4_determinism egGrammar [49, 43, 50]).1,
   (claim_C4_determinism egGrammar [49, 43, 50]).2.2 1 [PAction.reduce 0, PAction.shift 3]
     (PAction.reduce 0) (by decide)⟩

/-- C5: For every previous tree and every malformed edit sequence,
`reparse` fails with the explicit malformed-edit-sequence error and
returns no partial result (the error constructor carries no tree); the
previous tree, an immutable value, is left unchanged. -/
theorem claim_C5_malformed_edits (G : Grammar) (prev : Tree) (E : List Edit)
    (newText : List Nat) (hbad : validEdits prev.srcLen E = false) :
    reparse G prev E newText = .error .malformedEditSequence := by
  unfold reparse
  rw [hbad]
  simp

/-- Witness for C5 at the spec's Scenario 4 instance: an overlapping
edit pair (second old_end_byte less than first new_end_byte) is
rejected. -/
theorem claim_C5_witness :
    validEdits (Tree.mk (Node.leaf 1 0 3 false false) 3).srcLen egBadEdits = false ∧
      reparse egGrammar (Tree.mk (Node.leaf 1 0 3 false false) 3) egBadEdits [50, 43, 50] =
        .error .malformedEditSequence :=
  ⟨by decide,
   claim_C5_malformed_edits egGrammar (Tree.mk (Node.leaf 1 0 3 false false) 3)
     egBadEdits [50, 43, 50] (by decide)⟩

/-- C6: The grammar-table handle embeds a format/version identifier
checked at load time: loading succeeds exactly when the version matches,
a disagreement is fatal at initialization (the pipeline's only error,
independent of the parsed input), and never at parse time (`parse`
itself is total into `Tree`). -/
theorem claim_C6_version_check (h : LanguageHandle) (t1 t2 : List Nat) :
    ((loadLanguage h).isOk = true ↔ h.abiVersion = supportedAbiVersion) ∧
      (parseWithHandle h t1).isOk = (parseWithHandle h t2).isOk ∧
      (h.abiVersion ≠ supportedAbiVersion →
        parseWithHandle h t1 = .error .versionMismatch) := by
  unfold parseWithHandle loadLanguage
  by_cases hv : h.abiVersion = supportedAbiVersion
  · simp [hv, Except.isOk, Except.toBool, Except.map]
  · simp [hv, Except.isOk, Except.toBool, Except.map]

/-- Witness for C6: a handle with ABI version 13 fails at load,
uniformly in the input. -/
theorem claim_C6_witness :
    (parseWithHandle ⟨13, egGrammar⟩ [49]).isOk = (parseWithHandle ⟨13, egGrammar⟩ []).isOk ∧
      parseWithHandle ⟨13, egGrammar⟩ [49] = .error .versionMismatch :=
  ⟨(claim_C6_version_check ⟨13, egGrammar⟩ [49] []).2.1,
   (claim_C6_version_check ⟨13, egGrammar⟩ [49] []).2.2 (by decide)⟩

/-- C7: For every byte cursor position within the input and every
valid-symbol set, the Scanner returns the longest token match at that
position among the rules applicable in that set, breaking ties first by
rule priority and then by earliest-declared rule; if no rule matches, it
emits a synthetic ERROR token (symbol 0) of length exactly one and
advances by that amount (the returned length, always at least 1 and
never past the input boundary) rather than halting. -/
theorem claim_C7_scanner_contract (G : Grammar) (V : Nat → Bool) (text : List Nat)
    (p : Nat) (hp : p < text.length) :
    (1 ≤ (scanNext G V text p).2 ∧ p + (scanNext G V text p).2 ≤ text.length) ∧
      ((∃ ir, TokenMatch G V text p ir ∧
          scanNext G V text p = (ir.2.sym, ir.2.pattern.length) ∧
          ∀ ir2, TokenMatch G V text p ir2 → ir2 = ir ∨ betterTok ir ir2 = true) ∨
        ((∀ ir, ¬ TokenMatch G V text p ir) ∧ scanNext G V text p = (0, 1))) := by
  refine ⟨⟨scanNext_pos G V text p, scanNext_le G V text p hp⟩, ?_⟩
  rcases scanWindow_cases G V (List.take (maxLook G) (List.drop p text)) with
    ⟨hc, hw⟩ | ⟨ir, hmem, hw, hmax⟩
  · right
    constructor
    · intro ir hir
      have hmem := (mem_scanCands_iff G V text p ir).mpr hir
      rw [hc] at hmem
      cases hmem
    · unfold scanNext
      exact hw
  · left
    refine ⟨ir, (mem_scanCands_iff G V text p ir).mp hmem, ?_, ?_⟩
    · unfold scanNext
      exact hw
    · intro ir2 hir2
      exact hmax ir2 ((mem_scanCands_iff G V text p ir2).mpr hir2)

/-- Witness for C7: scanning `"1+"` at position 0 with the full
valid-symbol set returns a token of positive length inside the input. -/
theorem claim_C7_witness :
    (0 : Nat) < ([49, 43] : List Nat).length ∧
      1 ≤ (scanNext egGrammar (fun _ => true) [49, 43] 0).2 ∧
      0 + (scanNext egGrammar (fun _ => true) [49, 43] 0).2 ≤ ([49, 43] : List Nat).length :=
  ⟨by decide,
   (claim_C7_scanner_contract egGrammar (fun _ => true) [49, 43] 0 (by decide)).1.1,
   (claim_C7_scanner_contract egGrammar (fun _ => true) [49, 43] 0 (by decide)).1.2⟩

/-- C8: Every tree produced by `parse` or `reparse` satisfies the
containment invariant `wfNode`: every node's byte range equals the union
of its children's ranges (hence contains each child's range), and the
children's ranges are ordered left-to-right, contiguous, and
gap-free. -/
theorem claim_C8_containment (G : Grammar) (text : List Nat) (prev : Tree)
    (E : List Edit) (newText : List Nat) (t : Tree) :
    wfNode (parse G text).root = true ∧
      (reparse G prev E newText = .ok t → wfNode t.root = true) := by
  constructor
  · obtain ⟨hwf, _, _, _⟩ :=
      parseFromTokens_wf G (tokenize G text) text.length (tokenize_chain G text)
    unfold parse
    exact hwf
  · intro h
    exact (reparse_wf G prev E newText t h).1

/-- Witness for C8: the Scenario 3 reparse returns a tree, and both it
and the fresh parse are well formed. -/
theorem claim_C8_witness :
    reparse egGrammar (parse egGrammar [49, 43, 50]) [egEdit] [49, 43, 49] =
        .ok (parse egGrammar [49, 43, 49]) ∧
      wfNode (parse egGrammar [49, 43, 49]).root = true :=
  ⟨by rfl,
   (claim_C8_containment egGrammar [49, 43, 49] (parse egGrammar [49, 43, 50])
     [egEdit] [49, 43, 49] (parse egGrammar [49, 43, 49])).2 (by rfl)⟩

/-- C9: The public binding surface (the declarations of rigz.h) provides
no operation that can mutate the grammar table: its only function,
`tree_sitter_rigz`, takes no arguments and returns a pointer to const
`TSLanguage`, so every caller-visible handle to the table is read-only
at the type level. -/
theorem claim_C9_readonly_binding :
    RigzHeader.rigzHeaderDecls.filter RigzHeader.isFunc =
        [RigzHeader.CDecl.funcDecl
          (.ptr (.constQ (.named "TSLanguage"))) "tree_sitter_rigz" []] ∧
      ∀ d ∈ RigzHeader.rigzHeaderDecls, RigzHeader.isFunc d = true →
        RigzHeader.funcParams d = [] ∧
          RigzHeader.isConstPtr (RigzHeader.funcRet d) = true := by
  decide

/-- C10: Inclusion of the binding header is idempotent: because of the
`TREE_SITTER_RIGZ_H_` include guard, including rigz.h any number of
times (at least once) in one translation unit yields exactly the same
declarations as including it once, with no redefinition. -/
theorem claim_C10_include_guard_idempotent (st : RigzHeader.PPState) (n : Nat)
    (hguard : st.defined.contains RigzHeader.guardMacro = false) (hn : 1 ≤ n) :
    (RigzHeader.includeRigzN n st).2 = RigzHeader.rigzHeaderDecls := by
  cases n with
  | zero => omega
  | succ m =>
    have h1 : RigzHeader.includeRigzOnce st =
        (⟨RigzHeader.guardMacro :: st.defined⟩, RigzHeader.rigzHeaderDecls) := by
      unfold RigzHeader.includeRigzOnce
      rw [hguard]
      simp
    have h2 : RigzHeader.includeRigzN m ⟨RigzHeader.guardMacro :: st.defined⟩ =
        (⟨RigzHeader.guardMacro :: st.defined⟩, []) := by
      apply RigzHeader.includeRigzN_defined
      simp [List.contains_cons]
    simp only [RigzHeader.includeRigzN, h1, h2, List.append_nil]

/-- Witness for C10: three inclusions starting from an empty
preprocessor state emit exactly the header's declarations once. -/
theorem claim_C10_witness :
    (RigzHeader.PPState.mk []).defined.contains RigzHeader.guardMacro = false ∧
      (RigzHeader.includeRigzN 3 (RigzHeader.PPState.mk  [])).2 =
        RigzHeader.rigzHeaderDecls :=
  ⟨by decide,
   claim_C10_include_guard_idempotent (RigzHeader.PPState.mk []) 3 (by decide) (by omega)⟩

end RigzParse
